import Mathlib

/-!
Verification of the caption-synthesis core of `auto_subtitle/cli.py`.

The embedding models the two functions that carry all of the logic:

* `format_time` (cli.py lines 155-159): Python's `divmod` on numbers is
  floor-division with a remainder, and `int(...)` truncates toward zero;
  seconds are modelled as exact rationals.
* `write_word_level_ass` (cli.py lines 108-153): each `file.write(...)`
  call is modelled as appending one string to an output list; an uncaught
  Python exception (KeyError on a segment with no `words` key, ValueError
  from `range(0, n, 0)`) is modelled as an `Option String` error paired
  with the strings written before the exception was raised.

The local variables `group_text` (line 132) and `index` (lines 125, 153)
of the source are dead for the produced output (the first is never used,
the second is only incremented) and are not modelled.
-/

/-- Python `divmod(a, b)` on numbers: floor quotient and remainder. -/
def pydivmod (a b : ℚ) : ℚ × ℚ := ((⌊a / b⌋ : ℤ), a - b * (⌊a / b⌋ : ℤ))

/-- Python `int(q)`: truncation toward zero. -/
def pyint (q : ℚ) : ℤ := if q < 0 then -⌊-q⌋ else ⌊q⌋

/-- Python `f"{n:0Wd}"`: decimal representation of `n`, left-padded with
zeros to width `W`, a leading minus sign counting toward the width. -/
def fmtPad (width : ℕ) (n : ℤ) : String :=
  if n < 0 then
    "-" ++ ⟨List.replicate (width - 1 - (Nat.repr n.natAbs).length) '0'⟩ ++ Nat.repr n.natAbs
  else
    ⟨List.replicate (width - (Nat.repr n.toNat).length) '0'⟩ ++ Nat.repr n.toNat

/-- `format_time` of cli.py (lines 155-159):
`hours, remainder = divmod(seconds, 3600)`;
`minutes, remainder = divmod(remainder, 60)`;
`seconds, milliseconds = divmod(remainder, 1)`;
`f"{int(hours):01d}:{int(minutes):02d}:{int(seconds):02d}.{int(milliseconds*100):02d}"`. -/
def format_time (seconds : ℚ) : String :=
  let hr := pydivmod seconds 3600
  let mr := pydivmod hr.2 60
  let sm := pydivmod mr.2 1
  fmtPad 1 (pyint hr.1) ++ ":" ++ fmtPad 2 (pyint mr.1) ++ ":" ++
    fmtPad 2 (pyint sm.1) ++ "." ++ fmtPad 2 (pyint (sm.2 * 100))

/-- A word of the transcript: `word['word']`, `word['start']`, `word['end']`. -/
structure Word where
  word : String
  start : ℚ
  «end» : ℚ

/-- A transcript segment; `words = none` models a segment dict with no
`'words'` key, so that `segment['words']` raises `KeyError`. -/
structure Segment where
  words : Option (List Word)

/-- The eleven header strings written by cli.py lines 110-123 before any
segment is examined. -/
def headerLines : List String :=
  ["[Script Info]\n",
   "Title: Auto-generated Subtitle\n",
   "ScriptType: v4.00+\n",
   "Collisions: Normal\n",
   "PlayDepth: 0\n\n",
   "[V4+ Styles]\n",
   "Format: Name, Fontname, Fontsize, PrimaryColour, SecondaryColour, OutlineColour, BackColour, Bold, Italic, BorderStyle, Outline, Shadow, Alignment, MarginL, MarginR, MarginV, Encoding\n",
   "Style: Default, Montserrat, 14, &H00FFFFFF, &H00FFFFFF, &H00000000, &H64000000, 1, 0, 5, 1, 1, 5, 5, 5, 15, 1\n",
   "Style: Highlight, Montserrat, 14, &H0000FF00, &H00FFFFFF, &H00000000, &H64000000, 1, 0, 5, 1, 1, 5, 5, 5, 15, 1\n",
   "\n[Events]\n",
   "Format: Layer, Start, End, Style, Name, MarginL, MarginR, MarginV, Effect, Text\n"]

/-- Python `str.upper()`: upper-case every character of the string. -/
def pyUpper (s : String) : String := ⟨s.data.map Char.toUpper⟩

/-- The styled-word list of cli.py lines 141-149, enumerating the group
with counter `k`: the word at position `j` is wrapped in
`{\rHighlight}...{\rDefault}`, every word is upper-cased. -/
def styledAux (j : ℕ) : ℕ → List Word → List String
  | _, [] => []
  | k, w :: rest =>
      (if k = j then "\x7b\\rHighlight\x7d" ++ pyUpper w.word ++ "\x7b\\rDefault\x7d"
       else pyUpper w.word) :: styledAux j (k + 1) rest

/-- `styled_text` for a group with active position `j` (`for k, w in enumerate(group)`). -/
def styledText (group : List Word) (j : ℕ) : List String := styledAux j 0 group

/-- One `Dialogue:` event line of cli.py line 152, for active position `j`
and active word `w` of `group`, with delay applied to `w`'s own times. -/
def dialogueLine (delay : ℚ) (group : List Word) (j : ℕ) (w : Word) : String :=
  "Dialogue: 0," ++ format_time (w.start + delay) ++ "," ++ format_time (w.«end» + delay) ++
    ",Default,,0,0,0,," ++ String.intercalate " " (styledText group j) ++ "\n"

/-- The event lines of one group (`for j, word in enumerate(group)`),
starting the enumeration counter at `j`. -/
def groupLinesAux (delay : ℚ) (group : List Word) : ℕ → List Word → List String
  | _, [] => []
  | j, w :: rest => dialogueLine delay group j w :: groupLinesAux delay group (j + 1) rest

/-- All event lines of one group. -/
def groupLines (delay : ℚ) (group : List Word) : List String := groupLinesAux delay group 0 group

/-- The slices `words[i:i+k]` for `i in range(0, len(words), k)` with a
positive step `k`: successive blocks of `k` consecutive elements. -/
def chunk {α : Type} (k : ℕ) : List α → List (List α)
  | [] => []
  | a :: l => (a :: l.take (k - 1)) :: chunk k (l.drop (k - 1))
  termination_by l => l.length
  decreasing_by simp only [List.length_cons, List.length_drop]; omega

/-- Event lines of one segment's word list under the block policy. -/
def blockLines (delay : ℚ) (k : ℕ) (words : List Word) : List String :=
  ((chunk k words).map (groupLines delay)).flatten

/-- cli.py lines 130-153 for one segment's `words`: `range(0, len(words),
window_size)` raises `ValueError` when the step is `0`, is empty when the
step is negative (its stop `len(words)` is never below the start `0`), and
otherwise yields the block starts `0, k, 2k, ...`. -/
def segmentLines (delay : ℚ) (window_size : ℤ) (words : List Word) : Except String (List String) :=
  if window_size = 0 then .error "ValueError: range() arg 3 must not be zero"
  else if window_size < 0 then .ok []
  else .ok (blockLines delay window_size.toNat words)

/-- cli.py lines 126-153: the segment loop. Returns the event lines
written, and the uncaught exception (if any) that aborted the loop;
`segment['words']` on a segment with no `words` key raises `KeyError`. -/
def processSegments (delay : ℚ) (window_size : ℤ) : List Segment → List String × Option String
  | [] => ([], none)
  | seg :: rest =>
    match seg.words with
    | none => ([], some "KeyError: 'words'")
    | some words =>
      match segmentLines delay window_size words with
      | .error e => ([], some e)
      | .ok lines =>
        let tail := processSegments delay window_size rest
        (lines ++ tail.1, tail.2)

/-- cli.py lines 108-153, `write_word_level_ass(segments, delay, file,
window_size)`: the header is written first, then the segment loop runs.
The result is the full ordered list of strings written to `file` and the
uncaught exception (if any) that ended the call. -/
def write_word_level_ass (segments : List Segment) (delay : ℚ) (window_size : ℤ) :
    List String × Option String :=
  let tail := processSegments delay window_size segments
  (headerLines ++ tail.1, tail.2)

/-- Claim C10: the fixed header (Script Info block, the `Default` and
`Highlight` style declarations, and the Events format line) is written
unconditionally before any segment is examined, and for an empty segment
sequence the output is exactly the header with no event lines. -/
theorem header_written_unconditionally (delay : ℚ) (window_size : ℤ) (segments : List Segment) :
    (write_word_level_ass segments delay window_size).1 =
      headerLines ++ (processSegments delay window_size segments).1 ∧
    write_word_level_ass [] delay window_size = (headerLines, none) := by
  constructor
  · rfl
  · simp [write_word_level_ass, processSegments]

/-- Claim C9: rendering is deterministic — two runs of the renderer on the
same segments with the same configuration (window size, delay bias)
produce identical output. -/
theorem render_deterministic (s₁ s₂ : List Segment) (d₁ d₂ : ℚ) (w₁ w₂ : ℤ)
    (hs : s₁ = s₂) (hd : d₁ = d₂) (hw : w₁ = w₂) :
    write_word_level_ass s₁ d₁ w₁ = write_word_level_ass s₂ d₂ w₂ := by
  subst hs; subst hd; subst hw; rfl

theorem render_deterministic_witness :
    ([] : List Segment) = [] ∧ (0 : ℚ) = 0 ∧ (5 : ℤ) = 5 ∧
      write_word_level_ass [] 0 5 = write_word_level_ass [] 0 5 :=
  ⟨rfl, rfl, rfl, render_deterministic [] [] 0 0 5 5 rfl rfl rfl⟩

/-- Claim C8: for every window size ≥ 1, a segment whose word list is
empty contributes zero event lines and raises no error: its presence does
not change the processing of the remaining segments at all. -/
theorem empty_words_no_windows (delay : ℚ) (window_size : ℤ) (h : 1 ≤ window_size)
    (rest : List Segment) :
    segmentLines delay window_size [] = .ok [] ∧
    processSegments delay window_size (Segment.mk (some []) :: rest) =
      processSegments delay window_size rest ∧
    write_word_level_ass [Segment.mk (some [])] delay window_size = (headerLines, none) := by
  have h0 : window_size ≠ 0 := by omega
  have h1 : ¬ window_size < 0 := by omega
  refine ⟨?_, ?_, ?_⟩ <;>
    simp [segmentLines, processSegments, write_word_level_ass, blockLines, chunk, h0, h1]

theorem empty_words_no_windows_witness :
    (1 : ℤ) ≤ 1 ∧
      (segmentLines 0 1 [] = .ok [] ∧
        processSegments 0 1 (Segment.mk (some []) :: []) = processSegments 0 1 [] ∧
        write_word_level_ass [Segment.mk (some [])] 0 1 = (headerLines, none)) :=
  ⟨by decide, empty_words_no_windows 0 1 (by decide) []⟩

/-- A run on a list whose first segment has no `words` key raises
`KeyError` immediately after the header: used to settle claim C1. -/
theorem missing_words_key_raises (delay : ℚ) (window_size : ℤ) (rest : List Segment) :
    write_word_level_ass (Segment.mk none :: rest) delay window_size =
      (headerLines, some "KeyError: 'words'") := by
  simp [write_word_level_ass, processSegments]

/-- Claim C1 counterexample: a segment with no `words` key is not skipped
with a diagnostic — the run raises `KeyError` and aborts, so a following
well-formed segment produces no event lines at all. -/
theorem missing_words_key_cex :
    (write_word_level_ass [Segment.mk none, Segment.mk (some [Word.mk "ok" 0 1])] 0 5).2 ≠
      none ∧
    (write_word_level_ass [Segment.mk none, Segment.mk (some [Word.mk "ok" 0 1])] 0 5).1 =
      headerLines := by
  constructor <;> simp [write_word_level_ass, processSegments]

/-- Claim C7 counterexample: a window size ≤ 0 is not rejected before
processing: with window size `-1` the run over a segment holding one word
completes normally, emitting the header and zero event lines and
surfacing no error of any kind. -/
theorem invalid_window_size_cex :
    write_word_level_ass [Segment.mk (some [Word.mk "ok" 0 1])] 0 (-1) = (headerLines, none) := by
  simp [write_word_level_ass, processSegments, segmentLines]

/-- Claim C7 amended: the window size is never validated. A negative
window size makes every `range(0, len(words), window_size)` empty, so the
run completes with the header and zero event lines and no error; a window
size of exactly `0` raises `ValueError` at the first segment that carries
a `words` list — after the header has already been written — rather than
before processing begins. -/
theorem invalid_window_size_behavior :
    (∀ (delay : ℚ) (window_size : ℤ) (segments : List Segment), window_size < 0 →
        (∀ s ∈ segments, s.words ≠ none) →
        write_word_level_ass segments delay window_size = (headerLines, none)) ∧
    (∀ (delay : ℚ) (ws : List Word) (rest : List Segment),
        write_word_level_ass (Segment.mk (some ws) :: rest) delay 0 =
          (headerLines, some "ValueError: range() arg 3 must not be zero")) := by
  constructor
  · intro delay window_size segments hneg hall
    have hz : window_size ≠ 0 := by omega
    suffices h : processSegments delay window_size segments = ([], none) by
      simp [write_word_level_ass, h]
    induction segments with
    | nil => rfl
    | cons seg rest ih =>
      have hseg := hall seg (by simp)
      match hw : seg.words with
      | none => exact absurd hw hseg
      | some ws =>
        have htail : processSegments delay window_size rest = ([], none) :=
          ih (fun s hs => hall s (by simp [hs]))
        simp [processSegments, hw, segmentLines, hz, hneg, htail]
  · intro delay ws rest
    simp [write_word_level_ass, processSegments, segmentLines]

theorem invalid_window_size_behavior_witness :
    (-2 : ℤ) < 0 ∧ (∀ s ∈ [Segment.mk (some [])], s.words ≠ none) ∧
      write_word_level_ass [Segment.mk (some [])] 0 (-2) = (headerLines, none) :=
  ⟨by decide, by simp, invalid_window_size_behavior.1 0 (-2) [Segment.mk (some [])]
    (by decide) (by simp)⟩

/-- Pointwise description of `styledAux`: enumeration starting at `k`
upper-cases every word and wraps exactly position `j` in the
Highlight/Default style-switch pair. -/
theorem styledAux_getElem (j : ℕ) (l : List Word) :
    ∀ (k i : ℕ), (styledAux j k l)[i]? = (l[i]?).map (fun w =>
      if k + i = j then "\x7b\\rHighlight\x7d" ++ pyUpper w.word ++ "\x7b\\rDefault\x7d"
      else pyUpper w.word) := by
  induction l with
  | nil => intro k i; simp [styledAux]
  | cons w rest ih =>
    intro k i
    cases i with
    | zero => simp [styledAux]
    | succ i =>
      simp only [styledAux, List.getElem?_cons_succ, ih (k + 1) i]
      have : k + 1 + i = k + (i + 1) := by omega
      rw [this]

set_option maxRecDepth 40000 in
/-- Claim C5: color-swap rendering. Every member word of a window is
upper-cased unconditionally, and exactly the active position `j` is
wrapped in a switch to the `Highlight` style followed by a switch back to
`Default`; on the scenario words I/am/here with window size 5, exactly
three event lines are emitted, all showing `I AM HERE`, with the
highlight pair around `I`, `AM`, `HERE` respectively. -/
theorem color_swap_render :
    (∀ (group : List Word) (j i : ℕ),
        (styledText group j)[i]? = (group[i]?).map (fun w =>
          if i = j then "\x7b\\rHighlight\x7d" ++ pyUpper w.word ++ "\x7b\\rDefault\x7d"
          else pyUpper w.word)) ∧
    write_word_level_ass
        [Segment.mk (some [Word.mk "I" 0 (1/2), Word.mk "am" (1/2) 1, Word.mk "here" 1 (3/2)])]
        0 5 =
      (headerLines ++
        ["Dialogue: 0,0:00:00.00,0:00:00.50,Default,,0,0,0,,\x7b\\rHighlight\x7dI\x7b\\rDefault\x7d AM HERE\n",
         "Dialogue: 0,0:00:00.50,0:00:01.00,Default,,0,0,0,,I \x7b\\rHighlight\x7dAM\x7b\\rDefault\x7d HERE\n",
         "Dialogue: 0,0:00:01.00,0:00:01.50,Default,,0,0,0,,I AM \x7b\\rHighlight\x7dHERE\x7b\\rDefault\x7d\n"],
       none) := by
  constructor
  · intro group j i
    have h := styledAux_getElem j group 0 i
    simpa [styledText] using h
  · have e0 : format_time ((0 : ℚ) + 0) = "0:00:00.00" := by
      norm_num [format_time, pydivmod, pyint]; decide
    have e1 : format_time ((1 : ℚ)/2 + 0) = "0:00:00.50" := by
      norm_num [format_time, pydivmod, pyint]; decide
    have e2 : format_time ((1 : ℚ) + 0) = "0:00:01.00" := by
      norm_num [format_time, pydivmod, pyint]; decide
    have e3 : format_time ((3 : ℚ)/2 + 0) = "0:00:01.50" := by
      norm_num [format_time, pydivmod, pyint]; decide
    simp only [write_word_level_ass, processSegments, segmentLines, blockLines, chunk,
      groupLines, groupLinesAux, dialogueLine, styledText, styledAux, List.take, List.drop,
      List.map, List.flatten, e0, e1, e2, e3]
    decide

set_option maxRecDepth 40000 in
/-- Claim C2 counterexample: a negative biased time is not clamped to the
encoding of `0`: with delay `-1`, a word with `start = end = 0` is emitted
with timestamp `-1:59:59.00` (Python floor-divmod on a negative value),
not `0:00:00.00`. -/
theorem bias_clamp_cex :
    ((0 : ℚ) + (-1) < 0) ∧
    format_time ((0 : ℚ) + (-1)) = "-1:59:59.00" ∧
    format_time (0 : ℚ) = "0:00:00.00" ∧
    format_time ((0 : ℚ) + (-1)) ≠ format_time (0 : ℚ) ∧
    write_word_level_ass [Segment.mk (some [Word.mk "hi" 0 0])] (-1) 5 =
      (headerLines ++
        ["Dialogue: 0,-1:59:59.00,-1:59:59.00,Default,,0,0,0,,\x7b\\rHighlight\x7dHI\x7b\\rDefault\x7d\n"],
       none) := by
  have em : format_time ((0 : ℚ) + (-1)) = "-1:59:59.00" := by
    norm_num [format_time, pydivmod, pyint]; decide
  have e0 : format_time (0 : ℚ) = "0:00:00.00" := by
    norm_num [format_time, pydivmod, pyint]; decide
  refine ⟨by norm_num, em, e0, by rw [em, e0]; decide, ?_⟩
  simp only [write_word_level_ass, processSegments, segmentLines, blockLines, chunk,
    groupLines, groupLinesAux, dialogueLine, styledText, styledAux, List.take, List.drop,
    List.map, List.flatten, em]
  decide

/-- Claim C2 amended: the emitted start and end timestamps are exactly the
encoding of the word's own time shifted by the delay — rendering with
delay `d` equals rendering the time-shifted word with delay `0` — but a
negative shifted time is not clamped to `0`: the encoder emits a
negative-hours timestamp such as `-1:59:59.00`. -/
theorem bias_shift_exact :
    (∀ (delay : ℚ) (group : List Word) (j : ℕ) (w : Word),
        dialogueLine delay group j w =
          dialogueLine 0 group j (Word.mk w.word (w.start + delay) (w.«end» + delay))) ∧
    format_time ((0 : ℚ) + (-1)) = "-1:59:59.00" := by
  constructor
  · intro delay group j w
    simp [dialogueLine]
  · norm_num [format_time, pydivmod, pyint]; decide

/-- `pyint` on an integer value is that integer. -/
theorem pyint_intCast (z : ℤ) : pyint ((z : ℤ) : ℚ) = z := by
  rcases lt_or_ge z 0 with hz | hz
  · have : ((z : ℤ) : ℚ) < 0 := by exact_mod_cast hz
    rw [pyint, if_pos this, ← Int.cast_neg, Int.floor_intCast, neg_neg]
  · have : ¬ ((z : ℤ) : ℚ) < 0 := by
      rw [not_lt]; exact_mod_cast hz
    rw [pyint, if_neg this, Int.floor_intCast]

/-- `pyint` agrees with the floor on non-negative inputs. -/
theorem pyint_of_nonneg {q : ℚ} (h : 0 ≤ q) : pyint q = ⌊q⌋ := by
  rw [pyint, if_neg (not_lt.mpr h)]

/-- The remainder produced by Python floor-divmod lies in `[0, b)`. -/
theorem pydivmod_bounds (a b : ℚ) (hb : 0 < b) :
    0 ≤ a - b * ((⌊a / b⌋ : ℤ) : ℚ) ∧ a - b * ((⌊a / b⌋ : ℤ) : ℚ) < b := by
  have h1 : ((⌊a / b⌋ : ℤ) : ℚ) ≤ a / b := Int.floor_le _
  have h2 : a / b < ((⌊a / b⌋ : ℤ) : ℚ) + 1 := Int.lt_floor_add_one _
  have h3 : ((⌊a / b⌋ : ℤ) : ℚ) * b ≤ a := (le_div_iff₀ hb).mp h1
  have h4 : a < (((⌊a / b⌋ : ℤ) : ℚ) + 1) * b := (div_lt_iff₀ hb).mp h2
  constructor <;> nlinarith

/-- The hours value computed by `format_time`. -/
def tHour (t : ℚ) : ℤ := ⌊t / 3600⌋

/-- The remainder after removing whole hours. -/
def tRem1 (t : ℚ) : ℚ := t - 3600 * ((tHour t : ℤ) : ℚ)

/-- The minutes value computed by `format_time`. -/
def tMin (t : ℚ) : ℤ := ⌊tRem1 t / 60⌋

/-- The remainder after removing whole minutes. -/
def tRem2 (t : ℚ) : ℚ := tRem1 t - 60 * ((tMin t : ℤ) : ℚ)

/-- The seconds value computed by `format_time`. -/
def tSec (t : ℚ) : ℤ := ⌊tRem2 t / 1⌋

/-- The fractional-second part computed by `format_time`. -/
def tFrac (t : ℚ) : ℚ := tRem2 t - 1 * ((tSec t : ℤ) : ℚ)

/-- The hundredths value computed by `format_time`. -/
def tCent (t : ℚ) : ℤ := pyint (tFrac t * 100)

/-- `format_time` rendered through its four numeric fields. -/
theorem format_time_eq_fields (t : ℚ) :
    format_time t = fmtPad 1 (tHour t) ++ ":" ++ fmtPad 2 (tMin t) ++ ":" ++
      fmtPad 2 (tSec t) ++ "." ++ fmtPad 2 (tCent t) := by
  simp only [format_time, pydivmod, tCent, tFrac, tSec, tRem2, tMin, tRem1, tHour,
    pyint_intCast]

theorem tRem1_bounds (t : ℚ) : 0 ≤ tRem1 t ∧ tRem1 t < 3600 := by
  simpa [tRem1, tHour] using pydivmod_bounds t 3600 (by norm_num)

theorem tMin_bounds (t : ℚ) : 0 ≤ tMin t ∧ tMin t < 60 := by
  obtain ⟨h0, h1⟩ := tRem1_bounds t
  constructor
  · exact Int.floor_nonneg.mpr (div_nonneg h0 (by norm_num))
  · exact Int.floor_lt.mpr (by rw [div_lt_iff₀ (by norm_num : (0:ℚ) < 60)]; push_cast; linarith)

theorem tRem2_bounds (t : ℚ) : 0 ≤ tRem2 t ∧ tRem2 t < 60 := by
  simpa [tRem2, tMin] using pydivmod_bounds (tRem1 t) 60 (by norm_num)

theorem tSec_bounds (t : ℚ) : 0 ≤ tSec t ∧ tSec t < 60 := by
  obtain ⟨h0, h1⟩ := tRem2_bounds t
  constructor
  · exact Int.floor_nonneg.mpr (div_nonneg h0 (by norm_num))
  · exact Int.floor_lt.mpr (by rw [div_one]; push_cast; linarith)

theorem tFrac_bounds (t : ℚ) : 0 ≤ tFrac t ∧ tFrac t < 1 := by
  simpa [tFrac, tSec] using pydivmod_bounds (tRem2 t) 1 (by norm_num)

theorem tCent_eq_floor (t : ℚ) : tCent t = ⌊tFrac t * 100⌋ :=
  pyint_of_nonneg (mul_nonneg (tFrac_bounds t).1 (by norm_num))

theorem tCent_bounds (t : ℚ) : 0 ≤ tCent t ∧ tCent t < 100 := by
  obtain ⟨h0, h1⟩ := tFrac_bounds t
  rw [tCent_eq_floor]
  constructor
  · exact Int.floor_nonneg.mpr (mul_nonneg h0 (by norm_num))
  · exact Int.floor_lt.mpr (by push_cast; nlinarith)

/-- The four fields of `format_time` decompose the floor of `100 t`:
the rendered hundredths value is the truncation of `t` to hundredths. -/
theorem fields_identity (t : ℚ) :
    360000 * tHour t + 6000 * tMin t + 100 * tSec t + tCent t = ⌊100 * t⌋ := by
  have e1 : (100 : ℚ) * t = 100 * tRem1 t + ((360000 * tHour t : ℤ) : ℚ) := by
    simp only [tRem1]; push_cast; ring
  have e2 : (100 : ℚ) * tRem1 t = 100 * tRem2 t + ((6000 * tMin t : ℤ) : ℚ) := by
    simp only [tRem2]; push_cast; ring
  have e3 : (100 : ℚ) * tRem2 t = tFrac t * 100 + ((100 * tSec t : ℤ) : ℚ) := by
    simp only [tFrac]; push_cast; ring
  rw [e1, Int.floor_add_int, e2, Int.floor_add_int, e3, Int.floor_add_int, ← tCent_eq_floor]
  linarith

/-- Auxiliary: `Nat.toDigitsCore` never shrinks its accumulator. -/
theorem toDigitsCore_length_le (b : ℕ) :
    ∀ (f n : ℕ) (ds : List Char), ds.length ≤ (Nat.toDigitsCore b f n ds).length := by
  intro f
  induction f with
  | zero => intro n ds; simp [Nat.toDigitsCore]
  | succ f ih =>
    intro n ds
    rw [Nat.toDigitsCore]
    split
    · simp
    · exact le_trans (by simp) (ih (n / b) (Nat.digitChar (n % b) :: ds))

/-- The decimal representation of a natural number has at least one digit. -/
theorem repr_length_pos (n : ℕ) : 1 ≤ (Nat.repr n).length := by
  show 1 ≤ (Nat.toDigits 10 n).asString.length
  show 1 ≤ (Nat.toDigits 10 n).length
  rw [Nat.toDigits, Nat.toDigitsCore]
  split
  · simp
  · exact le_trans (by simp) (toDigitsCore_length_le 10 n (n / 10) [Nat.digitChar (n % 10)])

/-- Zero-padding to width 1 is the identity on non-negative numbers. -/
theorem fmtPad_one_nonneg {n : ℤ} (h : 0 ≤ n) : fmtPad 1 n = Nat.repr n.toNat := by
  rw [fmtPad, if_neg (not_lt.mpr h)]
  have hl : 1 - (Nat.repr n.toNat).length = 0 := by
    have := repr_length_pos n.toNat
    omega
  rw [hl]
  show (⟨[]⟩ : String) ++ Nat.repr n.toNat = Nat.repr n.toNat
  rfl

/-- A number rendered as exactly two digits, zero-padded. -/
def twoDig (n : ℕ) : String := ⟨[Nat.digitChar (n / 10), Nat.digitChar (n % 10)]⟩

theorem fmtPad_two_small : ∀ n : ℕ, n < 100 → fmtPad 2 ((n : ℕ) : ℤ) = twoDig n := by decide

theorem fmtPad_one_small : ∀ n : ℕ, n < 10 →
    fmtPad 1 ((n : ℕ) : ℤ) = (⟨[Nat.digitChar n]⟩ : String) := by decide

/-- Claim C4: for every non-negative time `t`, `format_time t` has the
shape `H:MM:SS.cc`: hours unpadded (the bare decimal representation, at
least one digit), minutes and seconds zero-padded to exactly two digits,
and the fields reading back — as `H*360000 + M*6000 + S*100 + cc` — to
`⌊100 t⌋`, the number of whole hundredths of a second of `t` obtained by
truncation, never rounding. -/
theorem frame_time_grammar (t : ℚ) (ht : 0 ≤ t) :
    ∃ H M S C : ℕ, M < 60 ∧ S < 60 ∧ C < 100 ∧
      (360000 * H + 6000 * M + 100 * S + C : ℤ) = ⌊100 * t⌋ ∧
      format_time t = Nat.repr H ++ ":" ++ twoDig M ++ ":" ++ twoDig S ++ "." ++ twoDig C := by
  have hh0 : 0 ≤ tHour t := Int.floor_nonneg.mpr (div_nonneg ht (by norm_num))
  obtain ⟨hm0, hm1⟩ := tMin_bounds t
  obtain ⟨hs0, hs1⟩ := tSec_bounds t
  obtain ⟨hc0, hc1⟩ := tCent_bounds t
  refine ⟨(tHour t).toNat, (tMin t).toNat, (tSec t).toNat, (tCent t).toNat,
    by omega, by omega, by omega, ?_, ?_⟩
  · rw [Int.toNat_of_nonneg hh0, Int.toNat_of_nonneg hm0, Int.toNat_of_nonneg hs0,
      Int.toNat_of_nonneg hc0]
    exact fields_identity t
  · rw [format_time_eq_fields, fmtPad_one_nonneg hh0,
      ← Int.toNat_of_nonneg hm0, fmtPad_two_small ((tMin t).toNat) (by omega),
      ← Int.toNat_of_nonneg hs0, fmtPad_two_small ((tSec t).toNat) (by omega),
      ← Int.toNat_of_nonneg hc0, fmtPad_two_small ((tCent t).toNat) (by omega)]
    simp only [Int.toNat_natCast]

theorem frame_time_grammar_witness :
    (0 : ℚ) ≤ 2 ∧
      ∃ H M S C : ℕ, M < 60 ∧ S < 60 ∧ C < 100 ∧
        (360000 * H + 6000 * M + 100 * S + C : ℤ) = ⌊100 * (2 : ℚ)⌋ ∧
        format_time 2 = Nat.repr H ++ ":" ++ twoDig M ++ ":" ++ twoDig S ++ "." ++ twoDig C :=
  ⟨by decide, frame_time_grammar 2 (by decide)⟩

/-- Decimal digit characters compare like the digits they encode. -/
theorem digitChar_lt : ∀ a : ℕ, a < 10 → ∀ b : ℕ, b < 10 → a < b →
    Nat.digitChar a < Nat.digitChar b := by decide

/-- Two-digit zero-padded renderings compare lexicographically like the
numbers they encode. -/
theorem lex_two_digits {a b : ℕ} (hb : b < 100) (hab : a < b) (r1 r2 : List Char) :
    List.Lex (fun x1 x2 => x1 < x2)
      (Nat.digitChar (a / 10) :: Nat.digitChar (a % 10) :: r1)
      (Nat.digitChar (b / 10) :: Nat.digitChar (b % 10) :: r2) := by
  rcases Nat.lt_or_ge (a / 10) (b / 10) with h | h
  · exact List.Lex.rel (digitChar_lt _ (by omega) _ (by omega) h)
  · have hd : a / 10 = b / 10 := by omega
    have hm : a % 10 < b % 10 := by omega
    rw [hd]
    exact List.Lex.cons (List.Lex.rel (digitChar_lt _ (by omega) _ (by omega) hm))

/-- A strict character-list lexicographic comparison gives string `≤`. -/
theorem strmk_le_of_lex {l1 l2 : List Char}
    (h : List.Lex (fun x1 x2 => x1 < x2) l1 l2) : (⟨l1⟩ : String) ≤ ⟨l2⟩ :=
  le_of_lt (String.lt_iff_toList_lt.mpr h)

/-- Lexicographic comparison of two rendered `H:MM:SS.cc` strings with
single-digit hour fields follows the numeric value
`360000 H + 6000 M + 100 S + C`. -/
theorem format_fields_le {H1 M1 S1 C1 H2 M2 S2 C2 : ℕ}
    (hH1 : H1 < 10) (hH2 : H2 < 10) (hM1 : M1 < 60) (hM2 : M2 < 60)
    (hS1 : S1 < 60) (hS2 : S2 < 60) (hC1 : C1 < 100) (hC2 : C2 < 100)
    (hle : 360000 * H1 + 6000 * M1 + 100 * S1 + C1 ≤
      360000 * H2 + 6000 * M2 + 100 * S2 + C2) :
    (⟨[Nat.digitChar H1, ':', Nat.digitChar (M1 / 10), Nat.digitChar (M1 % 10), ':',
        Nat.digitChar (S1 / 10), Nat.digitChar (S1 % 10), '.',
        Nat.digitChar (C1 / 10), Nat.digitChar (C1 % 10)]⟩ : String) ≤
      ⟨[Nat.digitChar H2, ':', Nat.digitChar (M2 / 10), Nat.digitChar (M2 % 10), ':',
        Nat.digitChar (S2 / 10), Nat.digitChar (S2 % 10), '.',
        Nat.digitChar (C2 / 10), Nat.digitChar (C2 % 10)]⟩ := by
  rcases Nat.lt_or_ge H1 H2 with h | h
  · exact strmk_le_of_lex (List.Lex.rel (digitChar_lt _ hH1 _ hH2 h))
  · have hH : H1 = H2 := by omega
    subst hH
    rcases Nat.lt_or_ge M1 M2 with h1 | h1
    · exact strmk_le_of_lex (.cons (.cons (lex_two_digits (by omega) h1 _ _)))
    · have hM : M1 = M2 := by omega
      subst hM
      rcases Nat.lt_or_ge S1 S2 with h2 | h2
      · exact strmk_le_of_lex
          (.cons (.cons (.cons (.cons (.cons (lex_two_digits (by omega) h2 _ _))))))
      · have hS : S1 = S2 := by omega
        subst hS
        rcases Nat.lt_or_ge C1 C2 with h3 | h3
        · exact strmk_le_of_lex
            (.cons (.cons (.cons (.cons (.cons (.cons (.cons (.cons
              (lex_two_digits hC2 h3 [] [])))))))))
        · have hC : C1 = C2 := by omega
          subst hC
          exact le_refl _

/-- Monotonicity of `format_time` under lexicographic string order, for
times within the single-hour-digit range `[0, 36000)`. -/
theorem format_time_le_format_time {t1 t2 : ℚ} (h0 : 0 ≤ t1) (h12 : t1 ≤ t2)
    (h36 : t2 < 36000) : format_time t1 ≤ format_time t2 := by
  have hh10 : 0 ≤ tHour t1 := Int.floor_nonneg.mpr (div_nonneg h0 (by norm_num))
  have hh20 : 0 ≤ tHour t2 := Int.floor_nonneg.mpr (div_nonneg (le_trans h0 h12) (by norm_num))
  have hh21 : tHour t2 < 10 := Int.floor_lt.mpr
    (by rw [div_lt_iff₀ (by norm_num : (0:ℚ) < 3600)]; push_cast; linarith)
  have hh11 : tHour t1 < 10 := Int.floor_lt.mpr
    (by rw [div_lt_iff₀ (by norm_num : (0:ℚ) < 3600)]; push_cast; linarith)
  obtain ⟨hm10, hm11⟩ := tMin_bounds t1
  obtain ⟨hm20, hm21⟩ := tMin_bounds t2
  obtain ⟨hs10, hs11⟩ := tSec_bounds t1
  obtain ⟨hs20, hs21⟩ := tSec_bounds t2
  obtain ⟨hc10, hc11⟩ := tCent_bounds t1
  obtain ⟨hc20, hc21⟩ := tCent_bounds t2
  have hN : 360000 * tHour t1 + 6000 * tMin t1 + 100 * tSec t1 + tCent t1 ≤
      360000 * tHour t2 + 6000 * tMin t2 + 100 * tSec t2 + tCent t2 := by
    rw [fields_identity, fields_identity]
    exact Int.floor_mono (by linarith)
  have hNn : 360000 * (tHour t1).toNat + 6000 * (tMin t1).toNat +
      100 * (tSec t1).toNat + (tCent t1).toNat ≤
      360000 * (tHour t2).toNat + 6000 * (tMin t2).toNat +
      100 * (tSec t2).toNat + (tCent t2).toNat := by omega
  rw [format_time_eq_fields t1, format_time_eq_fields t2,
    ← Int.toNat_of_nonneg hh10, ← Int.toNat_of_nonneg hh20,
    ← Int.toNat_of_nonneg hm10, ← Int.toNat_of_nonneg hm20,
    ← Int.toNat_of_nonneg hs10, ← Int.toNat_of_nonneg hs20,
    ← Int.toNat_of_nonneg hc10, ← Int.toNat_of_nonneg hc20,
    fmtPad_one_small _ (by omega), fmtPad_one_small _ (by omega),
    fmtPad_two_small ((tMin t1).toNat) (by omega), fmtPad_two_small ((tMin t2).toNat) (by omega),
    fmtPad_two_small ((tSec t1).toNat) (by omega), fmtPad_two_small ((tSec t2).toNat) (by omega),
    fmtPad_two_small ((tCent t1).toNat) (by omega), fmtPad_two_small ((tCent t2).toNat) (by omega)]
  exact format_fields_le (by omega) (by omega) (by omega) (by omega) (by omega) (by omega)
    (by omega) (by omega) hNn

/-- Claim C6 amended: with a fixed bias, the encoded timestamp is
lexicographically monotone in the word time for all times whose biased
value lies in `[0, 36000)` — that is, while the unpadded hours field has a
single digit. (Beyond ten hours the claim fails, see the counterexample:
`9:00:00.00` compares above `10:00:00.00`.) -/
theorem encode_lex_mono_bounded (bias t1 t2 : ℚ) (h0 : 0 ≤ t1 + bias) (h12 : t1 < t2)
    (h36 : t2 + bias < 36000) : format_time (t1 + bias) ≤ format_time (t2 + bias) :=
  format_time_le_format_time h0 (by linarith) h36

theorem encode_lex_mono_bounded_witness :
    (0 : ℚ) ≤ 0 + 0 ∧ (0 : ℚ) < 1 ∧ (1 : ℚ) + 0 < 36000 ∧
      format_time ((0 : ℚ) + 0) ≤ format_time ((1 : ℚ) + 0) :=
  ⟨by simp, by decide, by simp, encode_lex_mono_bounded 0 0 1 (by simp) (by decide) (by simp)⟩

/-- Claim C6 counterexample: the hours field is unpadded, so encoding is
not lexicographically monotone in general: `32400 < 36000` seconds, yet
`format_time` gives `9:00:00.00` and `10:00:00.00`, and `"9..." > "10..."`
in lexicographic string order. -/
theorem encode_lex_mono_cex :
    (32400 : ℚ) < 36000 ∧
      ¬ format_time ((32400 : ℚ) + 0) ≤ format_time ((36000 : ℚ) + 0) := by
  have e1 : format_time ((32400 : ℚ) + 0) = "9:00:00.00" := by
    norm_num [format_time, pydivmod, pyint]; decide
  have e2 : format_time ((36000 : ℚ) + 0) = "10:00:00.00" := by
    norm_num [format_time, pydivmod, pyint]; decide
  refine ⟨by decide, ?_⟩
  rw [e1, e2]
  intro hle
  have hlt : ("10:00:00.00" : String) < "9:00:00.00" :=
    String.lt_iff_toList_lt.mpr (List.Lex.rel (by decide))
  exact absurd hle (not_le.mpr hlt)

/-- One group emits one event line per word of the group. -/
theorem groupLinesAux_length (delay : ℚ) (g : List Word) :
    ∀ (l : List Word) (j : ℕ), (groupLinesAux delay g j l).length = l.length := by
  intro l
  induction l with
  | nil => intro j; rfl
  | cons w rest ih => intro j; simp [groupLinesAux, ih]

/-- The event line at position `i` of a group enumeration started at `j`
is the line of word `i` with active position `j + i`. -/
theorem groupLinesAux_getElem (delay : ℚ) (g : List Word) :
    ∀ (l : List Word) (j i : ℕ),
      (groupLinesAux delay g j l)[i]? =
        (l[i]?).map (fun w => dialogueLine delay g (j + i) w) := by
  intro l
  induction l with
  | nil => intro j i; simp [groupLinesAux]
  | cons w rest ih =>
    intro j i
    cases i with
    | zero => simp [groupLinesAux]
    | succ i =>
      simp only [groupLinesAux, List.getElem?_cons_succ, ih (j + 1) i]
      have h : j + 1 + i = j + (i + 1) := by omega
      rw [h]

/-- Unfolding of the block decomposition on a non-empty word list. -/
theorem blockLines_cons (delay : ℚ) (k' : ℕ) (a : Word) (l : List Word) :
    blockLines delay (k' + 1) (a :: l) =
      groupLines delay (a :: l.take k') ++ blockLines delay (k' + 1) (l.drop k') := by
  simp only [blockLines, chunk, Nat.add_sub_cancel, List.map_cons, List.flatten_cons]

/-- The block policy emits exactly one event line per word. -/
theorem blockLines_length (delay : ℚ) (k' : ℕ) :
    ∀ (n : ℕ) (words : List Word), words.length ≤ n →
      (blockLines delay (k' + 1) words).length = words.length := by
  intro n
  induction n with
  | zero =>
    intro words h
    cases words with
    | nil => simp [blockLines, chunk]
    | cons a l => simp at h
  | succ n ih =>
    intro words h
    cases words with
    | nil => simp [blockLines, chunk]
    | cons a l =>
      rw [blockLines_cons, List.length_append, groupLines, groupLinesAux_length,
        ih (l.drop k') (by simp only [List.length_drop]; simp at h; omega)]
      simp only [List.length_cons, List.length_take, List.length_drop]
      omega

/-- Every block produced by the chunk decomposition has at most `k' + 1` words. -/
theorem chunk_sizes (k' : ℕ) :
    ∀ (n : ℕ) (words : List Word), words.length ≤ n →
      ∀ g ∈ chunk (k' + 1) words, g.length ≤ k' + 1 := by
  intro n
  induction n with
  | zero =>
    intro words h g hg
    cases words with
    | nil => simp [chunk] at hg
    | cons a l => simp at h
  | succ n ih =>
    intro words h g hg
    cases words with
    | nil => simp [chunk] at hg
    | cons a l =>
      simp only [chunk, Nat.add_sub_cancel] at hg
      rcases List.mem_cons.mp hg with hg | hg
      · subst hg
        simp only [List.length_cons, List.length_take]
        omega
      · exact ih (l.drop k') (by simp only [List.length_drop]; simp at h; omega) g hg

/-- A block index is in range exactly when its first word index is. -/
theorem chunk_length_lt_iff (k' : ℕ) :
    ∀ (n : ℕ) (words : List Word), words.length ≤ n →
      ∀ b, (b < (chunk (k' + 1) words).length ↔ b * (k' + 1) < words.length) := by
  intro n
  induction n with
  | zero =>
    intro words h b
    cases words with
    | nil => simp [chunk]
    | cons a l => simp at h
  | succ n ih =>
    intro words h b
    cases words with
    | nil => simp [chunk]
    | cons a l =>
      simp only [chunk, Nat.add_sub_cancel, List.length_cons]
      cases b with
      | zero => simp
      | succ b =>
        rw [Nat.succ_lt_succ_iff, ih (l.drop k') (by simp only [List.length_drop]; simp at h; omega) b]
        simp only [List.length_drop]
        have hmul : (b + 1) * (k' + 1) = b * (k' + 1) + (k' + 1) := by ring
        rw [hmul]
        generalize b * (k' + 1) = p
        omega

/-- The event line at global position `i` is the line of word `i`, with
member words the full block `⌊i/k⌋` and active position `i mod k`. -/
theorem blockLines_getElem (delay : ℚ) (k' : ℕ) :
    ∀ (n : ℕ) (words : List Word), words.length ≤ n → ∀ i, i < words.length →
      (blockLines delay (k' + 1) words)[i]? =
        (words[i]?).map
          (dialogueLine delay
            ((words.drop (i / (k' + 1) * (k' + 1))).take (k' + 1)) (i % (k' + 1))) := by
  intro n
  induction n with
  | zero =>
    intro words h i hi
    cases words with
    | nil => simp at hi
    | cons a l => simp at h
  | succ n ih =>
    intro words h i hi
    cases words with
    | nil => simp at hi
    | cons a l =>
      rw [blockLines_cons]
      by_cases hcase : i < (a :: l.take k').length
      · have hA : i < (groupLines delay (a :: l.take k')).length := by
          rw [groupLines, groupLinesAux_length]; exact hcase
        rw [List.getElem?_append_left hA, groupLines, groupLinesAux_getElem]
        have hik : i < k' + 1 := by
          simp only [List.length_cons, List.length_take] at hcase
          omega
        have hdiv : i / (k' + 1) = 0 := Nat.div_eq_of_lt hik
        have hmod : i % (k' + 1) = i := Nat.mod_eq_of_lt hik
        rw [hdiv, hmod, Nat.zero_mul, List.drop_zero, List.take_succ_cons]
        have helem : ((a :: l.take k') : List Word)[i]? = ((a :: l) : List Word)[i]? := by
          cases i with
          | zero => simp
          | succ i' =>
            rw [List.getElem?_cons_succ, List.getElem?_cons_succ]
            exact List.getElem?_take_of_lt (by omega)
        rw [helem]
        simp only [Nat.zero_add]
      · push_neg at hcase
        simp only [List.length_cons, List.length_take] at hcase
        simp only [List.length_cons] at hi h
        obtain ⟨j, rfl⟩ : ∃ j, i = k' + 1 + j := ⟨i - (k' + 1), by omega⟩
        have hAlen : (groupLines delay (a :: l.take k')).length = k' + 1 := by
          rw [groupLines, groupLinesAux_length]
          simp only [List.length_cons, List.length_take]
          omega
        rw [List.getElem?_append_right (by rw [hAlen]; omega), hAlen]
        have hidx : k' + 1 + j - (k' + 1) = j := by omega
        rw [hidx]
        rw [ih (l.drop k') (by simp only [List.length_drop]; omega) j
          (by simp only [List.length_drop]; omega)]
        have e1 : (l.drop k')[j]? = l[k' + j]? := by
          rw [List.getElem?_drop]
        have e2 : ((a :: l) : List Word)[k' + 1 + j]? = l[k' + j]? := by
          have h : k' + 1 + j = (k' + j) + 1 := by omega
          rw [h, List.getElem?_cons_succ]
        have e3 : (k' + 1 + j) % (k' + 1) = j % (k' + 1) := by
          have h : k' + 1 + j = j + (k' + 1) := by omega
          rw [h, Nat.add_mod_right]
        have e4 : (k' + 1 + j) / (k' + 1) = j / (k' + 1) + 1 := by
          have h : k' + 1 + j = j + (k' + 1) := by omega
          rw [h, Nat.add_div_right _ (by omega)]
        have e5 : ((a :: l) : List Word).drop ((j / (k' + 1) + 1) * (k' + 1)) =
            (l.drop k').drop (j / (k' + 1) * (k' + 1)) := by
          rw [List.drop_drop]
          have h : (j / (k' + 1) + 1) * (k' + 1) = (k' + j / (k' + 1) * (k' + 1)) + 1 := by
            ring
          rw [h, List.drop_succ_cons]
        rw [e1, e2, e3, e4, e5]

/-- Words `i` and `j` are displayed by the same window group: some block
of the chunk decomposition covers both indices. -/
def sameGroup (k : ℕ) (words : List Word) (i j : ℕ) : Prop :=
  ∃ b, b < (chunk k words).length ∧
    b * k ≤ i ∧ i < b * k + k ∧ b * k ≤ j ∧ j < b * k + k

/-- Claim C3: block policy. For window size `k ≥ 1` the segment loop
succeeds and emits exactly one event line per word (`n` lines for `n`
words); every block has at most `k` member words; the line of word `i`
uses the member-word block starting at `⌊i/k⌋·k` with active position
`i mod k` — so its start and end timestamps come from word `i`'s own
times (see `dialogueLine`); and words `i` and `i+1` lie in the same block
iff `⌊i/k⌋ = ⌊(i+1)/k⌋`. -/
theorem block_policy (delay : ℚ) (k : ℕ) (hk : 1 ≤ k) (words : List Word) :
    segmentLines delay (k : ℤ) words = .ok (blockLines delay k words) ∧
    (blockLines delay k words).length = words.length ∧
    (∀ g ∈ chunk k words, g.length ≤ k) ∧
    (∀ i, i < words.length →
      (blockLines delay k words)[i]? =
        (words[i]?).map (dialogueLine delay ((words.drop (i / k * k)).take k) (i % k))) ∧
    (∀ i, i + 1 < words.length → (sameGroup k words i (i + 1) ↔ i / k = (i + 1) / k)) := by
  obtain ⟨k', rfl⟩ : ∃ k', k = k' + 1 := ⟨k - 1, by omega⟩
  refine ⟨?_, ?_, ?_, ?_, ?_⟩
  · have h1 : ((k' + 1 : ℕ) : ℤ) ≠ 0 := by exact_mod_cast Nat.succ_ne_zero k'
    have h2 : ¬ ((k' + 1 : ℕ) : ℤ) < 0 := not_lt.mpr (Int.natCast_nonneg _)
    rw [segmentLines, if_neg h1, if_neg h2, Int.toNat_natCast]
  · exact blockLines_length delay k' words.length words le_rfl
  · exact chunk_sizes k' words.length words le_rfl
  · intro i hi
    exact blockLines_getElem delay k' words.length words le_rfl i hi
  · intro i hi
    constructor
    · rintro ⟨b, hb, h1, h2, h3, h4⟩
      have hm : (b + 1) * (k' + 1) = b * (k' + 1) + (k' + 1) := by ring
      have e1 : i / (k' + 1) = b := Nat.div_eq_of_lt_le h1 (by rw [hm]; exact h2)
      have e2 : (i + 1) / (k' + 1) = b := Nat.div_eq_of_lt_le h3 (by rw [hm]; exact h4)
      rw [e1, e2]
    · intro hdiv
      refine ⟨i / (k' + 1), ?_, Nat.div_mul_le_self i (k' + 1),
        Nat.lt_div_mul_add (by omega), ?_, ?_⟩
      · rw [chunk_length_lt_iff k' words.length words le_rfl]
        exact lt_of_le_of_lt (Nat.div_mul_le_self i (k' + 1)) (by omega)
      · exact le_trans (Nat.div_mul_le_self i (k' + 1)) (Nat.le_succ i)
      · rw [hdiv]
        exact Nat.lt_div_mul_add (by omega)

theorem block_policy_witness :
    1 ≤ 2 ∧
      (segmentLines 0 ((2 : ℕ) : ℤ) [Word.mk "a" 0 1, Word.mk "b" 1 2, Word.mk "c" 2 3] =
          .ok (blockLines 0 2 [Word.mk "a" 0 1, Word.mk "b" 1 2, Word.mk "c" 2 3]) ∧
        (blockLines 0 2 [Word.mk "a" 0 1, Word.mk "b" 1 2, Word.mk "c" 2 3]).length =
          ([Word.mk "a" 0 1, Word.mk "b" 1 2, Word.mk "c" 2 3] : List Word).length ∧
        (∀ g ∈ chunk 2 [Word.mk "a" 0 1, Word.mk "b" 1 2, Word.mk "c" 2 3], g.length ≤ 2) ∧
        (∀ i, i < ([Word.mk "a" 0 1, Word.mk "b" 1 2, Word.mk "c" 2 3] : List Word).length →
          (blockLines 0 2 [Word.mk "a" 0 1, Word.mk "b" 1 2, Word.mk "c" 2 3])[i]? =
            (([Word.mk "a" 0 1, Word.mk "b" 1 2, Word.mk "c" 2 3] : List Word)[i]?).map
              (dialogueLine 0
                ((([Word.mk "a" 0 1, Word.mk "b" 1 2, Word.mk "c" 2 3] : List Word).drop
                  (i / 2 * 2)).take 2) (i % 2))) ∧
        (∀ i, i + 1 < ([Word.mk "a" 0 1, Word.mk "b" 1 2, Word.mk "c" 2 3] : List Word).length →
          (sameGroup 2 [Word.mk "a" 0 1, Word.mk "b" 1 2, Word.mk "c" 2 3] i (i + 1) ↔
            i / 2 = (i + 1) / 2))) :=
  ⟨by decide, block_policy 0 2 (by decide) [Word.mk "a" 0 1, Word.mk "b" 1 2, Word.mk "c" 2 3]⟩
